import Mathlib

/-!
Formal model of the block-STM style parallel executor of this repository,
centred on the read-intercepting database `VmDb` and the executor `Vm`
(`src/vm.rs`), plus the on-disk storage backend (`src/storage/on_disk.rs`).

Modelling conventions:
* `U256` values are natural numbers; operations that wrap in the source
  (`wrapping_add`, `wrapping_sub`, and release-mode `+=`/`-=` on `alloy`
  integers) are modelled with an explicit `% 2 ^ 256`.
* The salted 64-bit location hasher is modelled as the identity on
  `MemoryLocation` (the spec notes hash collisions are harmless for
  correctness, so the hash domain is taken to be the locations themselves).
* A per-location multi-version log (`BTreeMap<TxIdx, MemoryEntry>`) is a
  list of `(tx_idx, entry)` pairs in ascending `tx_idx` order;
  `range(..tx_idx).next_back()`-style backward iteration is the forward
  traversal of `entriesBelow`.
* Fallible Rust code returning `Result<_, E>` becomes `Except E _`;
  a `todo!()`/`unreachable!()` panic is modelled as `none` in an `Option`.
* Mutation of the per-execution read set / read accounts is explicit state
  passing: each `VmDb` operation returns the updated `VmDb`.
-/

/-- 2 ^ 256, the modulus of the source's `U256` arithmetic. -/
def U256LIMIT : Nat := 2 ^ 256

/-- `U256::MAX`. -/
def U256MAX : Nat := U256LIMIT - 1

/-- Wrapping 256-bit addition (release-mode `+` / `wrapping_add` on `U256`). -/
def uadd (a b : Nat) : Nat := (a + b) % U256LIMIT

/-- Wrapping 256-bit subtraction (release-mode `-` / `wrapping_sub` on `U256`). -/
def usub (a b : Nat) : Nat := (a + (U256LIMIT - b % U256LIMIT)) % U256LIMIT

/-- `U256::abs_diff`. -/
def absDiff (a b : Nat) : Nat := if b ≤ a then a - b else b - a

/-- Wrapping 64-bit reduction (`u64` nonce arithmetic). -/
def nonce64 (n : Nat) : Nat := n % 2 ^ 64

/-- A transaction version: index in the block and incarnation number. -/
structure TxVersion where
  tx_idx : Nat
  tx_incarnation : Nat
deriving DecidableEq, Repr

/-- An account's basic state (`AccountBasic` in `src/primitives.rs`). -/
structure AccountBasic where
  balance : Nat
  nonce : Nat
deriving DecidableEq, Repr

/-- A memory location (`MemoryLocation`); also used as its own hash, see the
module conventions. -/
inductive MemoryLocation where
  | Basic (address : Nat)
  | CodeHash (address : Nat)
  | Storage (address : Nat) (index : Nat)
deriving DecidableEq, Repr

/-- The write-log payload (`MemoryValue`). -/
inductive MemoryValue where
  | Basic (basic : AccountBasic)
  | CodeHash (hash : Nat)
  | Storage (value : Nat)
  | LazySender (subtraction : Nat)
  | LazyRecipient (addition : Nat)
  | ERC20TransferSender (subtraction : Nat)
  | ERC20TransferRecipient (addition : Nat)
  | SelfDestructed
deriving DecidableEq, Repr

/-- An entry of the multi-version log (`MemoryEntry`). -/
inductive MemoryEntry where
  | Data (tx_incarnation : Nat) (value : MemoryValue)
  | Estimate
deriving DecidableEq, Repr

/-- The origin that satisfied a single read (`ReadOrigin`). -/
inductive ReadOrigin where
  | MvMemory (version : TxVersion)
  | Storage
deriving DecidableEq, Repr

/-- Read errors of the intercepting database (`ReadError`). -/
inductive ReadError where
  | InconsistentRead
  | SelfDestructedAccount
  | BlockingIndex (idx : Nat)
  | InvalidMemoryLocationType
  | InvalidNonce
  | StorageError (msg : String)
deriving DecidableEq, Repr

/-- The lazy-evaluation classification of a transaction (`LazyStrategy`). -/
inductive LazyStrategy where
  | None
  | RawTransfer
  | ERC20Transfer (sender_balance_slot : Nat) (recipient_balance_slot : Nat)
      (amount : Nat)
deriving DecidableEq, Repr

/-- `matches!(strategy, LazyStrategy::RawTransfer)`. -/
def isRawTransfer : LazyStrategy → Bool
  | .RawTransfer => true
  | _ => false

/-- The account info handed back to the evaluator (`revm`'s `AccountInfo`,
with bytecode represented by an identifier). -/
structure AccountInfo where
  balance : Nat
  nonce : Nat
  code_hash : Nat
  code : Option Nat
deriving DecidableEq, Repr

/-- Stand-in for `KECCAK_EMPTY`, the code hash of empty bytecode. -/
def KECCAK_EMPTY : Nat := 0

/-- Association-list lookup (models map access keyed by location). -/
def lookupAssoc {α : Type} [DecidableEq α] {β : Type} :
    List (α × β) → α → Option β
  | [], _ => none
  | (k, v) :: rest, key => if k = key then some v else lookupAssoc rest key

/-- Association-list update/insert (models map entry mutation). -/
def setAssoc {α : Type} [DecidableEq α] {β : Type} :
    List (α × β) → α → β → List (α × β)
  | [], key, val => [(key, val)]
  | (k, v) :: rest, key, val =>
    if k = key then (k, val) :: rest else (k, v) :: setAssoc rest key val

/-- The entries of a per-location log strictly below `txIdx`, ordered from the
highest transaction index down: the order in which
`range(..tx_idx)` is consumed by repeated `next_back()`. -/
def entriesBelow (log : List (Nat × MemoryEntry)) (txIdx : Nat) :
    List (Nat × MemoryEntry) :=
  (log.filter (fun e => decide (e.1 < txIdx))).reverse

/-- The pre-block storage interface (`Storage` trait), errors as strings. -/
structure StorageModel where
  basic : Nat → Except String (Option AccountBasic)
  code_hash : Nat → Except String (Option Nat)
  code_by_hash : Nat → Except String (Option Nat)
  has_storage : Nat → Except String Bool
  storage : Nat → Nat → Except String Nat
  block_hash : Nat → Except String Nat

/-- A transaction environment (the fields of `TxEnv` the model needs). -/
structure TxEnvModel where
  caller : Nat
  transact_to : Option Nat
  nonce : Option Nat
  value : Nat
  data : List Nat
deriving DecidableEq, Repr

/-- Default `TxEnv` (used only to totalise the scheduler-guaranteed
in-bounds indexing `self.txs.get_unchecked(tx_idx)`). -/
def defaultTxEnv : TxEnvModel := ⟨0, none, none, 0, []⟩

/-- The per-block executor environment (`Vm`): pre-block storage, the
multi-version memory (`mv_memory.data` and `mv_memory.new_bytecodes`), the
keccak-256 function (kept abstract as a field), and the block's
transactions.  The chain/reward fields of the source `Vm` play no role in
the modelled operations. -/
structure Vm where
  storage : StorageModel
  mvData : MemoryLocation → Option (List (Nat × MemoryEntry))
  new_bytecodes : Nat → Option Nat
  keccak256 : List Nat → Nat
  txs : List TxEnvModel

/-- `mv_memory.data.contains_key(&hash)`. -/
def mvContains (vm : Vm) (loc : MemoryLocation) : Bool :=
  (vm.mvData loc).isSome

/-- Big-endian byte interpretation (`U256::from_be_slice` /
`Address::from_slice`). -/
def beBytesToNat (bytes : List Nat) : Nat :=
  bytes.foldl (fun acc b => acc * 256 + b) 0

/-- Big-endian byte representation of a value in `len` bytes. -/
def natToBeBytes (len n : Nat) : List Nat :=
  match len with
  | 0 => []
  | l + 1 => natToBeBytes l (n / 256) ++ [n % 256]

/-- `get_erc20_balance_slot`: keccak-256 of the 12-zero-byte-padded address
followed by a zero 256-bit word (64-byte buffer, `src/vm.rs:95-99`). -/
def get_erc20_balance_slot (keccak : List Nat → Nat) (address : Nat) : Nat :=
  keccak (List.replicate 12 0 ++ natToBeBytes 20 address ++ List.replicate 32 0)

/-- The 4-byte selector of `transfer(address,uint256)`. -/
def erc20TransferSelector : List Nat := [0xa9, 0x05, 0x9c, 0xbb]

/-- `LazyStrategy::from` (`src/vm.rs:112-130`). -/
def LazyStrategy.fromTx (keccak : List Nat → Nat) (tx_sender : Nat)
    (tx_recipient_code_hash : Option Nat) (input : List Nat) : LazyStrategy :=
  match tx_recipient_code_hash with
  | none => .RawTransfer
  | some _ =>
    if input.take 4 = erc20TransferSelector ∧ input.length = 4 + 32 + 32 then
      .ERC20Transfer (get_erc20_balance_slot keccak tx_sender)
        (get_erc20_balance_slot keccak (beBytesToNat ((input.drop 16).take 20)))
        (beBytesToNat ((input.drop 36).take 32))
    else .None

/-- The evaluator's invalid-transaction errors that `Vm::execute`
distinguishes, plus a catch-all for every other variant. -/
inductive InvalidTransaction where
  | LackOfFundForMaxFee
  | NonceTooHigh
  | NonceTooLow
  | OtherTx (code : Nat)
deriving DecidableEq, Repr

/-- `EVMError` as seen by `Vm::execute` (database errors carry `ReadError`). -/
inductive EVMError where
  | Transaction (err : InvalidTransaction)
  | Header (code : Nat)
  | Database (err : ReadError)
  | Custom (msg : String)
deriving DecidableEq, Repr

/-- `VmExecutionResult`.  The `Ok` payload is reduced to the
`next_validation_idx` field; receipts and the write set are produced by the
separately modelled translation functions. -/
inductive VmExecutionResult where
  | Retry
  | FallbackToSequential
  | ReadError (blocking_tx_idx : Nat)
  | ExecutionError (err : EVMError)
  | Ok (next_validation_idx : Nat)
deriving DecidableEq, Repr

/-- The error-dispatch arm of `Vm::execute` (`src/vm.rs:798-826`): how the
result of a failed `evm.transact()` is converted into a
`VmExecutionResult`. -/
def transactErrorResult (tx_idx : Nat) (err : EVMError) : VmExecutionResult :=
  match err with
  | .Database .InconsistentRead => .Retry
  | .Database .SelfDestructedAccount => .FallbackToSequential
  | .Database (.BlockingIndex blocking_tx_idx) => .ReadError blocking_tx_idx
  | err =>
    if 0 < tx_idx ∧ (err = .Transaction .LackOfFundForMaxFee
        ∨ err = .Transaction .NonceTooHigh) then
      .ReadError (tx_idx - 1)
    else
      .ExecutionError err

/-- A storage slot's change record (`revm`'s `EvmStorageSlot` as consumed by
the write-set translation: original and present value). -/
structure StorageSlot where
  original_value : Nat
  present_value : Nat
deriving DecidableEq, Repr

/-- The write-set value emitted by `Vm::execute` for one changed storage
slot (`src/vm.rs:715-754`); the `RawTransfer` arm is `unreachable!()` in the
source, modelled as `none`. -/
def storageSlotWriteValue (strategy : LazyStrategy) (slot : Nat)
    (value : StorageSlot) : Option MemoryValue :=
  match strategy with
  | .None => some (.Storage value.present_value)
  | .RawTransfer => none
  | .ERC20Transfer sender_balance_slot recipient_balance_slot _ =>
    if slot = sender_balance_slot then
      some (.ERC20TransferSender (usub value.original_value value.present_value))
    else if slot = recipient_balance_slot then
      some (.ERC20TransferRecipient (usub value.present_value value.original_value))
    else
      some (.Storage value.present_value)

/-- The on-disk storage backend handle (`src/storage/on_disk.rs`); the
`libmdbx` database handle itself is irrelevant to the modelled method. -/
structure OnDiskStorage where
  inner : Unit
deriving DecidableEq, Repr

/-- `OnDiskStorage::has_storage` (`src/storage/on_disk.rs:86-88`).  The
source body is `todo!()`, an unconditional panic; a panic is modelled as
`none` (no value of the declared `Result` type is ever produced). -/
def OnDiskStorage.has_storage (_ : OnDiskStorage) (_address : Nat) :
    Option (Except String Bool) :=
  none

/-- The per-execution read-intercepting database state (`VmDb`): the
environment `Vm` is passed separately to each operation, mirroring the
source's shared reference. -/
structure VmDb where
  tx_idx : Nat
  nonce : Nat
  from_addr : Nat
  from_hash : MemoryLocation
  to_addr : Option Nat
  to_hash : Option MemoryLocation
  to_code_hash : Option Nat
  lazy_strategy : LazyStrategy
  read_set : List (MemoryLocation × List ReadOrigin)
  read_accounts : List (MemoryLocation × (AccountBasic × Option Nat))
deriving DecidableEq, Repr

/-- `VmDb::push_origin` (`src/vm.rs:209-218`): push a new read origin, or
fail with `InconsistentRead` when the last origin present differs. -/
def push_origin (read_origins : List ReadOrigin) (origin : ReadOrigin) :
    Except ReadError (List ReadOrigin) :=
  match read_origins.getLast? with
  | some prev_origin =>
    if prev_origin = origin then .ok read_origins
    else .error .InconsistentRead
  | none => .ok (read_origins ++ [origin])

/-- The storage fallback of `VmDb::get_code_hash` (`src/vm.rs:250-256`). -/
def getCodeHashStorage (env : Vm) (db : VmDb) (loc : MemoryLocation)
    (address : Nat) (origins : List ReadOrigin) :
    Except ReadError (Option Nat × VmDb) :=
  match push_origin origins .Storage with
  | .error e => .error e
  | .ok origins2 =>
    match env.storage.code_hash address with
    | .ok h => .ok (h, { db with read_set := setAssoc db.read_set loc origins2 })
    | .error msg => .error (.StorageError msg)

/-- `VmDb::get_code_hash` (`src/vm.rs:220-257`): latest code hash below the
executing index from MV-Memory, else pre-block storage.  Note the source
falls through to storage when the nearest prior entry is an `Estimate` or a
non-code value. -/
def getCodeHash (env : Vm) (db : VmDb) (address : Nat) :
    Except ReadError (Option Nat × VmDb) :=
  let loc := MemoryLocation.CodeHash address
  let origins := (lookupAssoc db.read_set loc).getD []
  match (match env.mvData loc with
         | some log => (entriesBelow log db.tx_idx).head?
         | none => none) with
  | some (i, .Data inc value) =>
    match value with
    | .SelfDestructed => .error .SelfDestructedAccount
    | .CodeHash h =>
      match push_origin origins (.MvMemory ⟨i, inc⟩) with
      | .error e => .error e
      | .ok origins2 =>
        .ok (some h, { db with read_set := setAssoc db.read_set loc origins2 })
    | _ => getCodeHashStorage env db loc address origins
  | _ => getCodeHashStorage env db loc address origins

/-- `VmDb::hash_basic` (`src/vm.rs:197-205`); the source `unwrap`s `to_hash`
in the recipient branch (guaranteed `Some` by construction in
`Vm::execute`), totalised here with a default. -/
def hashBasic (db : VmDb) (address : Nat) : MemoryLocation :=
  if address = db.from_addr then db.from_hash
  else if some address = db.to_addr then (db.to_hash).getD (.Basic address)
  else .Basic address

/-- One backward traversal of an account location's multi-version log
(the loop of `VmDb::basic`, `src/vm.rs:296-356`).  Arguments after the
entry list: accumulated new origins, the running lazy-delta magnitude
`balance_addition`, its sign `positive_addition`, and `nonce_addition`.
Returns the new origins, the concrete account found (if any), and the
final accumulators. -/
def walkBasic (has_prev : Bool) (prev : List ReadOrigin) :
    List (Nat × MemoryEntry) → List ReadOrigin → Nat → Bool → Nat →
    Except ReadError (List ReadOrigin × Option AccountBasic × Nat × Bool × Nat)
  | [], new_origins, mag, pos, cnt => .ok (new_origins, none, mag, pos, cnt)
  | (blocking_idx, .Estimate) :: _, _, _, _, _ =>
    .error (.BlockingIndex blocking_idx)
  | (closest_idx, .Data tx_incarnation value) :: rest, new_origins, mag, pos, cnt =>
    if has_prev ∧ prev.length = new_origins.length then .error .InconsistentRead
    else
      let origin := ReadOrigin.MvMemory ⟨closest_idx, tx_incarnation⟩
      if has_prev ∧ ¬(prev[new_origins.length]? = some origin) then
        .error .InconsistentRead
      else
        let new_origins := new_origins ++ [origin]
        match value with
        | .Basic basic => .ok (new_origins, some basic, mag, pos, cnt)
        | .LazyRecipient addition =>
          if pos then
            walkBasic has_prev prev rest new_origins (uadd mag addition) pos cnt
          else
            walkBasic has_prev prev rest new_origins (absDiff mag addition)
              (decide (mag ≤ addition)) cnt
        | .LazySender subtraction =>
          if pos then
            walkBasic has_prev prev rest new_origins (absDiff mag subtraction)
              (decide (subtraction ≤ mag)) (cnt + 1)
          else
            walkBasic has_prev prev rest new_origins (uadd mag subtraction) pos
              (cnt + 1)
        | _ => .error .InvalidMemoryLocationType

/-- The storage fallback of `VmDb::basic` (`src/vm.rs:359-383`): when the
log produced no concrete account, check origin consistency, then resolve
the base account from pre-block storage (defaulting when absent but lazy
additions were seen).  Returns the final base account and the final new
origins. -/
def basicFallback (env : Vm) (address : Nat) (has_prev : Bool)
    (origins new_origins : List ReadOrigin) (final_account : Option AccountBasic)
    (mag : Nat) :
    Except ReadError (Option AccountBasic × List ReadOrigin) :=
  match final_account with
  | some basic => .ok (some basic, new_origins)
  | none =>
    if ¬has_prev then
      match env.storage.basic address with
      | .ok (some basic) => .ok (some basic, new_origins ++ [.Storage])
      | .ok none =>
        if 0 < mag then .ok (some ⟨0, 0⟩, new_origins ++ [.Storage])
        else .ok (none, new_origins ++ [.Storage])
      | .error msg => .error (.StorageError msg)
    else if ¬(origins.length = new_origins.length + 1)
        ∨ ¬(origins.getLast? = some .Storage) then
      .error .InconsistentRead
    else
      match env.storage.basic address with
      | .ok (some basic) => .ok (some basic, new_origins)
      | .ok none =>
        if 0 < mag then .ok (some ⟨0, 0⟩, new_origins)
        else .ok (none, new_origins)
      | .error msg => .error (.StorageError msg)

/-- Bytecode resolution on the success path of `VmDb::basic`
(`src/vm.rs:417-428`): in-block deployed bytecode from
`mv_memory.new_bytecodes`, else pre-block storage. -/
def resolveCode (env : Vm) (code_hash : Option Nat) :
    Except ReadError (Option Nat) :=
  match code_hash with
  | some h =>
    match env.new_bytecodes h with
    | some code => .ok (some code)
    | none =>
      match env.storage.code_by_hash h with
      | .ok code => .ok code
      | .error msg => .error (.StorageError msg)
  | none => .ok none

/-- The code-hash and bytecode resolution tail of `VmDb::basic`
(`src/vm.rs:412-440`): resolve the code hash (recipient shortcut or
`get_code_hash`), fetch the bytecode, register the account in
`read_accounts` and build the returned `AccountInfo`.  `db` already
carries the read set as updated by the walk and fallback. -/
def basicFinalizeRest (env : Vm) (db : VmDb) (address : Nat)
    (loc : MemoryLocation) (new_balance new_nonce : Nat) :
    Except ReadError (Option AccountInfo × VmDb) :=
  match (if some loc = db.to_hash then .ok (db.to_code_hash, db)
         else getCodeHash env db address) with
  | .error e => .error e
  | .ok (code_hash, db1) =>
    match resolveCode env code_hash with
    | .error e => .error e
    | .ok code =>
      let db2 := { db1 with
        read_accounts :=
          setAssoc db1.read_accounts loc (⟨new_balance, new_nonce⟩, code_hash) }
      .ok (some ⟨new_balance, new_nonce, code_hash.getD KECCAK_EMPTY, code⟩, db2)

/-- The nonce check and balance finalisation of `VmDb::basic`
(`src/vm.rs:391-410`), delegating to `basicFinalizeRest` on success. -/
def basicFinalize (env : Vm) (db : VmDb) (address : Nat) (loc : MemoryLocation)
    (final_account : Option AccountBasic) (mag : Nat) (pos : Bool) (cnt : Nat) :
    Except ReadError (Option AccountInfo × VmDb) :=
  match final_account with
  | none => .ok (none, db)
  | some account =>
    let new_nonce := nonce64 (account.nonce + cnt)
    if loc = db.from_hash ∧ ¬(new_nonce = db.nonce) then
      if 0 < db.tx_idx then .error (.BlockingIndex (db.tx_idx - 1))
      else .error .InvalidNonce
    else
      basicFinalizeRest env db address loc
        (if pos then uadd account.balance mag else usub account.balance mag)
        new_nonce

/-- The non-fast-path body of `VmDb::basic` (`src/vm.rs:280-440`). -/
def basicSlow (env : Vm) (db : VmDb) (address : Nat) (loc : MemoryLocation) :
    Except ReadError (Option AccountInfo × VmDb) :=
  let origins := (lookupAssoc db.read_set loc).getD []
  let has_prev := !origins.isEmpty
  match (if 0 < db.tx_idx then
           match env.mvData loc with
           | some log =>
             walkBasic has_prev origins (entriesBelow log db.tx_idx) [] 0 true 0
           | none => .ok ([], none, 0, true, 0)
         else .ok ([], none, 0, true, 0)) with
  | .error e => .error e
  | .ok (new_origins, walked_account, mag, pos, cnt) =>
    match basicFallback env address has_prev origins new_origins walked_account
        mag with
    | .error e => .error e
    | .ok (final_account, final_origins) =>
      let rs := if has_prev then db.read_set
                else setAssoc db.read_set loc final_origins
      basicFinalize env { db with read_set := rs } address loc final_account
        mag pos cnt

/-- `VmDb::basic` (`src/vm.rs:262-441`): the `RawTransfer` fast paths (a
sentinel sender account, no recipient account), else the full multi-version
read. -/
def VmDb.basic (env : Vm) (db : VmDb) (address : Nat) :
    Except ReadError (Option AccountInfo × VmDb) :=
  let loc := hashBasic db address
  if isRawTransfer db.lazy_strategy then
    if loc = db.from_hash then
      .ok (some ⟨U256MAX, db.nonce, KECCAK_EMPTY, none⟩, db)
    else if some loc = db.to_hash then
      .ok (none, db)
    else
      basicSlow env db address loc
  else
    basicSlow env db address loc

/-- The backward traversal of a storage location's log (the loop of
`VmDb::storage`, `src/vm.rs:495-530`), accumulating wrapped `ERC20Transfer`
deltas; on exhaustion the base value comes from pre-block storage. -/
def walkStorage (env : Vm) (address index : Nat) :
    List (Nat × MemoryEntry) → List ReadOrigin → Nat →
    Except ReadError (Nat × List ReadOrigin)
  | [], origins, acc =>
    let origins := origins ++ [.Storage]
    match env.storage.storage address index with
    | .ok value_from_storage => .ok (uadd value_from_storage acc, origins)
    | .error msg => .error (.StorageError msg)
  | (blocking_idx, .Estimate) :: _, _, _ => .error (.BlockingIndex blocking_idx)
  | (closest_idx, .Data tx_incarnation value) :: rest, origins, acc =>
    let origins := origins ++ [ReadOrigin.MvMemory ⟨closest_idx, tx_incarnation⟩]
    match value with
    | .Storage storage_value => .ok (uadd storage_value acc, origins)
    | .ERC20TransferRecipient addition =>
      walkStorage env address index rest origins (uadd acc addition)
    | .ERC20TransferSender subtraction =>
      walkStorage env address index rest origins (usub acc subtraction)
    | _ => .error .InvalidMemoryLocationType

/-- The no-multi-version fallback of `VmDb::storage` (`src/vm.rs:534-539`);
the recorded origins were cleared at the start of the read. -/
def storageNoMv (env : Vm) (db : VmDb) (loc : MemoryLocation)
    (address index : Nat) : Except ReadError (Nat × VmDb) :=
  match push_origin ([] : List ReadOrigin) .Storage with
  | .error e => .error e
  | .ok origins =>
    match env.storage.storage address index with
    | .ok v => .ok (v, { db with read_set := setAssoc db.read_set loc origins })
    | .error msg => .error (.StorageError msg)

/-- The non-bypass body of `VmDb::storage` (`src/vm.rs:481-540`): clear and
re-record the location's origins while resolving against MV-Memory, else
fall back to pre-block storage. -/
def storageSlow (env : Vm) (db : VmDb) (address index : Nat) :
    Except ReadError (Nat × VmDb) :=
  let loc := MemoryLocation.Storage address index
  if 0 < db.tx_idx then
    match env.mvData loc with
    | some log =>
      match walkStorage env address index (entriesBelow log db.tx_idx) [] 0 with
      | .ok (v, origins) =>
        .ok (v, { db with read_set := setAssoc db.read_set loc origins })
      | .error e => .error e
    | none => storageNoMv env db loc address index
  else storageNoMv env db loc address index

/-- `VmDb::storage` (`src/vm.rs:458-540`): the `ERC20Transfer` balance-slot
bypass straight to pre-block storage, else the full multi-version read. -/
def VmDb.storage (env : Vm) (db : VmDb) (address index : Nat) :
    Except ReadError (Nat × VmDb) :=
  match db.lazy_strategy with
  | .ERC20Transfer sender_balance_slot recipient_balance_slot _ =>
    if index = sender_balance_slot then
      match env.storage.storage address index with
      | .ok v => .ok (v, db)
      | .error msg => .error (.StorageError msg)
    else if index = recipient_balance_slot then
      match env.storage.storage address index with
      | .ok v => .ok (v, db)
      | .error msg => .error (.StorageError msg)
    else
      storageSlow env db address index
  | _ => storageSlow env db address index

/-- `VmDb::new` (`src/vm.rs:153-195`): build the per-execution database,
resolve the recipient code hash, classify the lazy strategy, and downgrade
a `RawTransfer` whose sender and recipient both lack MV-Memory entries. -/
def VmDb.new (vm : Vm) (tx_idx nonce : Nat) (from_addr : Nat)
    (from_hash : MemoryLocation) (to_addr : Option Nat)
    (to_hash : Option MemoryLocation) : Except ReadError VmDb :=
  let db0 : VmDb :=
    { tx_idx := tx_idx, nonce := nonce, from_addr := from_addr,
      from_hash := from_hash, to_addr := to_addr, to_hash := to_hash,
      to_code_hash := none, lazy_strategy := .None,
      read_set := [], read_accounts := [] }
  match to_addr with
  | none => .ok db0
  | some toAddr =>
    match getCodeHash vm db0 toAddr with
    | .error e => .error e
    | .ok (to_code_hash, db1) =>
      let strat := LazyStrategy.fromTx vm.keccak256 from_addr to_code_hash
        ((vm.txs.getD tx_idx defaultTxEnv).data)
      let strat :=
        if isRawTransfer strat
            ∧ ¬(mvContains vm from_hash = true)
            ∧ ¬(mvContains vm (to_hash.getD (.Basic toAddr)) = true) then
          LazyStrategy.None
        else strat
      .ok { db1 with to_code_hash := to_code_hash, lazy_strategy := strat }

/-! Theorems for the individual claims, with witnesses at concrete inputs. -/

/-- Claim C10: the claim says `OnDiskStorage::has_storage` is total and
never panics; the code's body is `todo!()`, an unconditional panic, so on
every address the call produces no value at all (modelled as `none`). -/
theorem claim_c10_has_storage_always_panics (s : OnDiskStorage)
    (address : Nat) : OnDiskStorage.has_storage s address = none := rfl

/-- Claim C3, counterexample: a storage-layer error raised during EVM
evaluation reaches the final match arm of `Vm::execute` and is surfaced as
`ExecutionError`, not `FallbackToSequential` as the claim states. -/
theorem claim_c3_counterexample :
    transactErrorResult 1 (.Database (.StorageError "disk failure"))
      = .ExecutionError (.Database (.StorageError "disk failure"))
    ∧ ¬(transactErrorResult 1 (.Database (.StorageError "disk failure"))
      = .FallbackToSequential) := by
  exact ⟨rfl, by decide⟩

/-- Claim C3 (amended): observing a self-destructed account during a read
makes `Vm::execute` return `FallbackToSequential`; a storage-layer error
during EVM evaluation, however, is surfaced as `ExecutionError` carrying
the `StorageError` (the block-level sequential fallback for it is the
caller's concern). -/
theorem claim_c3_selfdestruct_fallback_storage_error_surfaced
    (tx_idx : Nat) (msg : String) :
    transactErrorResult tx_idx (.Database .SelfDestructedAccount)
      = .FallbackToSequential
    ∧ transactErrorResult tx_idx (.Database (.StorageError msg))
      = .ExecutionError (.Database (.StorageError msg)) := by
  refine ⟨rfl, ?_⟩
  simp [transactErrorResult]

/-- Claim C4: an evaluator `LackOfFundForMaxFee` or `NonceTooHigh` error at
`tx_idx > 0` becomes `ReadError` with `blocking_tx_idx = tx_idx - 1`; any
other evaluator error, or one of these two at `tx_idx = 0`, is surfaced as
`ExecutionError`. -/
theorem claim_c4_optimistic_retry_dispatch (tx_idx : Nat)
    (e : InvalidTransaction) (code : Nat) (msg : String) :
    (0 < tx_idx → (e = .LackOfFundForMaxFee ∨ e = .NonceTooHigh) →
      transactErrorResult tx_idx (.Transaction e) = .ReadError (tx_idx - 1))
    ∧ (¬(e = .LackOfFundForMaxFee) → ¬(e = .NonceTooHigh) →
      transactErrorResult tx_idx (.Transaction e)
        = .ExecutionError (.Transaction e))
    ∧ (tx_idx = 0 →
      transactErrorResult tx_idx (.Transaction e)
        = .ExecutionError (.Transaction e))
    ∧ transactErrorResult tx_idx (.Header code) = .ExecutionError (.Header code)
    ∧ transactErrorResult tx_idx (.Custom msg)
      = .ExecutionError (.Custom msg) := by
  refine ⟨?_, ?_, ?_, ?_, ?_⟩
  · intro h1 h2
    rcases h2 with h2 | h2 <;> subst h2 <;> simp [transactErrorResult, h1]
  · intro h1 h2
    simp [transactErrorResult, h1, h2]
  · intro h1
    subst h1
    simp [transactErrorResult]
  · simp [transactErrorResult]
  · simp [transactErrorResult]

/-- Witness for claim C4 at concrete inputs. -/
theorem claim_c4_optimistic_retry_dispatch_witness :
    transactErrorResult 2 (.Transaction .LackOfFundForMaxFee) = .ReadError 1
    ∧ transactErrorResult 2 (.Transaction .NonceTooLow)
      = .ExecutionError (.Transaction .NonceTooLow)
    ∧ transactErrorResult 0 (.Transaction .NonceTooHigh)
      = .ExecutionError (.Transaction .NonceTooHigh) := by
  refine ⟨?_, ?_, ?_⟩
  · exact (claim_c4_optimistic_retry_dispatch 2 .LackOfFundForMaxFee 0 "").1
      (by decide) (Or.inl rfl)
  · exact (claim_c4_optimistic_retry_dispatch 2 .NonceTooLow 0 "").2.1
      (by decide) (by decide)
  · exact (claim_c4_optimistic_retry_dispatch 0 .NonceTooHigh 0 "").2.2.1 rfl

/-- Claim C7: a changed storage slot is emitted as `Storage(present)`,
except under the `ERC20Transfer` strategy where the sender balance slot is
emitted as `ERC20TransferSender(original - present)`, the recipient
balance slot as `ERC20TransferRecipient(present - original)`, and every
other slot still as `Storage(present)` (256-bit wrapping subtraction). -/
theorem claim_c7_storage_slot_write_translation (s r amt slot : Nat)
    (v : StorageSlot) :
    storageSlotWriteValue .None slot v = some (.Storage v.present_value)
    ∧ (slot = s →
        storageSlotWriteValue (.ERC20Transfer s r amt) slot v
          = some (.ERC20TransferSender (usub v.original_value v.present_value)))
    ∧ (¬(slot = s) → slot = r →
        storageSlotWriteValue (.ERC20Transfer s r amt) slot v
          = some (.ERC20TransferRecipient
              (usub v.present_value v.original_value)))
    ∧ (¬(slot = s) → ¬(slot = r) →
        storageSlotWriteValue (.ERC20Transfer s r amt) slot v
          = some (.Storage v.present_value)) := by
  refine ⟨rfl, ?_, ?_, ?_⟩
  · intro h1
    simp [storageSlotWriteValue, h1]
  · intro h1 h2
    subst h2
    simp [storageSlotWriteValue, h1]
  · intro h1 h2
    simp [storageSlotWriteValue, h1, h2]

/-- Witness for claim C7 at concrete inputs. -/
theorem claim_c7_storage_slot_write_translation_witness :
    storageSlotWriteValue (.ERC20Transfer 7 8 100) 7 ⟨500, 400⟩
      = some (.ERC20TransferSender 100)
    ∧ storageSlotWriteValue (.ERC20Transfer 7 8 100) 8 ⟨20, 120⟩
      = some (.ERC20TransferRecipient 100)
    ∧ storageSlotWriteValue (.ERC20Transfer 7 8 100) 9 ⟨1, 2⟩
      = some (.Storage 2) := by
  refine ⟨?_, ?_, ?_⟩
  · have h := (claim_c7_storage_slot_write_translation 7 8 100 7 ⟨500, 400⟩).2.1 rfl
    rw [h]
    decide
  · have h := (claim_c7_storage_slot_write_translation 7 8 100 8 ⟨20, 120⟩).2.2.1
      (by decide) rfl
    rw [h]
    decide
  · exact (claim_c7_storage_slot_write_translation 7 8 100 9 ⟨1, 2⟩).2.2.2
      (by decide) (by decide)

/-- Claim C8: under the `ERC20Transfer` strategy, a `VmDb::storage` read of
the sender or recipient balance slot is answered directly from pre-block
storage — the result is independent of MV-Memory and the returned state is
unchanged, so no read origin is recorded. -/
theorem claim_c8_erc20_balance_slot_bypass (env : Vm) (db : VmDb)
    (address index s r amt : Nat)
    (hstrat : db.lazy_strategy = .ERC20Transfer s r amt)
    (hidx : index = s ∨ index = r) :
    VmDb.storage env db address index
      = (match env.storage.storage address index with
         | .ok v => .ok (v, db)
         | .error msg => .error (.StorageError msg)) := by
  unfold VmDb.storage
  rw [hstrat]
  rcases hidx with h | h
  · simp [h]
  · by_cases hs : index = s
    · simp [hs]
    · simp [hs, h]

/-- Witness for claim C8 at concrete inputs. -/
theorem claim_c8_erc20_balance_slot_bypass_witness :
    VmDb.storage
      { storage :=
          { basic := fun _ => .ok none, code_hash := fun _ => .ok none,
            code_by_hash := fun _ => .ok none,
            has_storage := fun _ => .ok false,
            storage := fun _ _ => .ok 42, block_hash := fun _ => .ok 0 },
        mvData := fun _ => none, new_bytecodes := fun _ => none,
        keccak256 := fun _ => 0, txs := [] }
      { tx_idx := 1, nonce := 0, from_addr := 1, from_hash := .Basic 1,
        to_addr := some 2, to_hash := some (.Basic 2), to_code_hash := some 9,
        lazy_strategy := .ERC20Transfer 7 8 100, read_set := [],
        read_accounts := [] }
      2 7
      = .ok (42,
        { tx_idx := 1, nonce := 0, from_addr := 1, from_hash := .Basic 1,
          to_addr := some 2, to_hash := some (.Basic 2), to_code_hash := some 9,
          lazy_strategy := .ERC20Transfer 7 8 100, read_set := [],
          read_accounts := [] }) := by
  rw [claim_c8_erc20_balance_slot_bypass _ _ 2 7 7 8 100 rfl (Or.inl rfl)]

/-- Claim C6: under the `RawTransfer` strategy, `VmDb::basic` on the sender
location returns the sentinel account (the transaction's nonce, balance
`U256::MAX`, empty code) and on the recipient location returns `None`; in
both cases the result is independent of MV-Memory and storage and the
state is returned unchanged, so no read origin is recorded. -/
theorem claim_c6_raw_transfer_fast_paths (env : Vm) (db : VmDb)
    (address : Nat) (h : isRawTransfer db.lazy_strategy = true) :
    (hashBasic db address = db.from_hash →
      VmDb.basic env db address
        = .ok (some ⟨U256MAX, db.nonce, KECCAK_EMPTY, none⟩, db))
    ∧ (¬(hashBasic db address = db.from_hash) →
      some (hashBasic db address) = db.to_hash →
      VmDb.basic env db address = .ok (none, db)) := by
  refine ⟨fun h1 => ?_, fun h1 h2 => ?_⟩
  · simp [VmDb.basic, h, h1]
  · simp [VmDb.basic, h, h1, h2]

/-- A trivial pre-block storage model used by witnesses. -/
def witnessStorageModel : StorageModel :=
  { basic := fun _ => .ok none, code_hash := fun _ => .ok none,
    code_by_hash := fun _ => .ok none, has_storage := fun _ => .ok false,
    storage := fun _ _ => .ok 42, block_hash := fun _ => .ok 0 }

/-- An executor environment with empty MV-Memory, used by witnesses. -/
def witnessEnvEmpty : Vm :=
  { storage := witnessStorageModel, mvData := fun _ => none,
    new_bytecodes := fun _ => none, keccak256 := fun _ => 0, txs := [] }

/-- A `RawTransfer`-classified database state used by witnesses. -/
def witnessDbRaw : VmDb :=
  { tx_idx := 1, nonce := 5, from_addr := 1, from_hash := .Basic 1,
    to_addr := some 2, to_hash := some (.Basic 2), to_code_hash := none,
    lazy_strategy := .RawTransfer, read_set := [], read_accounts := [] }

/-- Witness for claim C6 at concrete inputs. -/
theorem claim_c6_raw_transfer_fast_paths_witness :
    VmDb.basic witnessEnvEmpty witnessDbRaw 1
      = .ok (some ⟨U256MAX, 5, KECCAK_EMPTY, none⟩, witnessDbRaw) :=
  (claim_c6_raw_transfer_fast_paths witnessEnvEmpty witnessDbRaw 1 rfl).1 rfl

/-- Characterisation of the strategy computed by `VmDb::new` from the
resolved recipient code hash, the transaction input, and the two
`contains_key` probes of MV-Memory. -/
theorem lazyStrategyCharacterization (k : List Nat → Nat) (sender : Nat)
    (ch : Option Nat) (input : List Nat) (A B : Bool) :
    ((if isRawTransfer (LazyStrategy.fromTx k sender ch input)
          ∧ ¬(A = true) ∧ ¬(B = true)
      then LazyStrategy.None else LazyStrategy.fromTx k sender ch input)
        = LazyStrategy.RawTransfer ↔ ch = none ∧ (A = true ∨ B = true))
    ∧ (∀ s r a,
        (if isRawTransfer (LazyStrategy.fromTx k sender ch input)
            ∧ ¬(A = true) ∧ ¬(B = true)
         then LazyStrategy.None else LazyStrategy.fromTx k sender ch input)
          = LazyStrategy.ERC20Transfer s r a ↔
        (¬(ch = none)
         ∧ (input.take 4 = erc20TransferSelector ∧ input.length = 68)
         ∧ s = get_erc20_balance_slot k sender
         ∧ r = get_erc20_balance_slot k (beBytesToNat ((input.drop 16).take 20))
         ∧ a = beBytesToNat ((input.drop 36).take 32)))
    ∧ ((if isRawTransfer (LazyStrategy.fromTx k sender ch input)
            ∧ ¬(A = true) ∧ ¬(B = true)
        then LazyStrategy.None else LazyStrategy.fromTx k sender ch input)
          = LazyStrategy.None ↔
        ¬(ch = none ∧ (A = true ∨ B = true))
        ∧ ¬(¬(ch = none) ∧ input.take 4 = erc20TransferSelector
            ∧ input.length = 68)) := by
  cases ch with
  | none =>
    cases A <;> cases B <;> simp [LazyStrategy.fromTx, isRawTransfer]
  | some c =>
    by_cases hsel : input.take 4 = erc20TransferSelector ∧ input.length = 68
    · refine ⟨?_, ?_, ?_⟩
      · simp [LazyStrategy.fromTx, isRawTransfer, hsel.1, hsel.2]
      · intro s r a
        simp [LazyStrategy.fromTx, isRawTransfer, hsel.1, hsel.2]
        constructor <;> rintro ⟨h1, h2, h3⟩ <;> exact ⟨h1.symm, h2.symm, h3.symm⟩
      · simp [LazyStrategy.fromTx, isRawTransfer, hsel.1, hsel.2]
    · refine ⟨?_, ?_, ?_⟩
      · simp [LazyStrategy.fromTx, isRawTransfer, hsel]
      · intro s r a
        simp [LazyStrategy.fromTx, isRawTransfer, hsel]
      · simp [LazyStrategy.fromTx, isRawTransfer, hsel]

/-- Claim C5: for a `Call` transaction, the strategy computed by
`VmDb::new` is `RawTransfer` exactly when the recipient resolved to no
code hash and the sender or recipient location already has MV-Memory
entries; it is `ERC20Transfer` exactly when the recipient has a code hash
and the input is the 4-byte `transfer(address,uint256)` selector with a
68-byte payload, with the balance slots computed as keccak-256 of the
12-zero-byte-padded address followed by a zero 256-bit word; otherwise
the strategy is `None`. -/
theorem claim_c5_lazy_strategy_classification (vm : Vm)
    (tx_idx nonce from_addr toAddr : Nat) (from_hash h : MemoryLocation)
    (db : VmDb)
    (hnew : VmDb.new vm tx_idx nonce from_addr from_hash (some toAddr)
      (some h) = .ok db) :
    (db.lazy_strategy = .RawTransfer ↔
      db.to_code_hash = none
      ∧ (mvContains vm from_hash = true ∨ mvContains vm h = true))
    ∧ (∀ s r a, db.lazy_strategy = .ERC20Transfer s r a ↔
        (¬(db.to_code_hash = none)
         ∧ ((vm.txs.getD tx_idx defaultTxEnv).data.take 4 = erc20TransferSelector
            ∧ (vm.txs.getD tx_idx defaultTxEnv).data.length = 68)
         ∧ s = get_erc20_balance_slot vm.keccak256 from_addr
         ∧ r = get_erc20_balance_slot vm.keccak256
             (beBytesToNat
               (((vm.txs.getD tx_idx defaultTxEnv).data.drop 16).take 20))
         ∧ a = beBytesToNat
             (((vm.txs.getD tx_idx defaultTxEnv).data.drop 36).take 32)))
    ∧ (db.lazy_strategy = .None ↔
        ¬(db.to_code_hash = none
          ∧ (mvContains vm from_hash = true ∨ mvContains vm h = true))
        ∧ ¬(¬(db.to_code_hash = none)
          ∧ (vm.txs.getD tx_idx defaultTxEnv).data.take 4 = erc20TransferSelector
          ∧ (vm.txs.getD tx_idx defaultTxEnv).data.length = 68)) := by
  simp only [VmDb.new] at hnew
  split at hnew
  · simp at hnew
  · next ch db1 heq =>
    simp only [Except.ok.injEq] at hnew
    subst hnew
    exact lazyStrategyCharacterization vm.keccak256 from_addr ch
      ((vm.txs.getD tx_idx defaultTxEnv).data)
      (mvContains vm from_hash) (mvContains vm h)

/-- A concrete `transfer(address,uint256)` call payload: the selector, the
recipient address 3 padded to 32 bytes, and the amount 100 padded to 32
bytes (68 bytes in total). -/
def witnessErc20Data : List Nat :=
  [0xa9, 0x05, 0x9c, 0xbb] ++ List.replicate 12 0
    ++ List.replicate 19 0 ++ [3] ++ List.replicate 31 0 ++ [100]

/-- An environment whose recipient has a code hash and whose single
transaction carries `witnessErc20Data`; keccak-256 is instantiated with
the length function. -/
def witnessEnvErc20 : Vm :=
  { storage :=
      { basic := fun _ => .ok none, code_hash := fun _ => .ok (some 7),
        code_by_hash := fun _ => .ok none, has_storage := fun _ => .ok false,
        storage := fun _ _ => .ok 0, block_hash := fun _ => .ok 0 },
    mvData := fun _ => none, new_bytecodes := fun _ => none,
    keccak256 := fun l => l.length,
    txs := [⟨1, some 2, some 1, 0, witnessErc20Data⟩] }

/-- The database state `VmDb::new` builds in `witnessEnvErc20`. -/
def witnessDbErc20 : VmDb :=
  { tx_idx := 0, nonce := 1, from_addr := 1, from_hash := .Basic 1,
    to_addr := some 2, to_hash := some (.Basic 2), to_code_hash := some 7,
    lazy_strategy := .ERC20Transfer 64 64 100,
    read_set := [(.CodeHash 2, [.Storage])], read_accounts := [] }

/-- Witness for claim C5 at concrete inputs. -/
theorem claim_c5_lazy_strategy_classification_witness :
    VmDb.new witnessEnvErc20 0 1 1 (.Basic 1) (some 2) (some (.Basic 2))
      = .ok witnessDbErc20
    ∧ witnessDbErc20.lazy_strategy = .ERC20Transfer 64 64 100 := by
  have hnew : VmDb.new witnessEnvErc20 0 1 1 (.Basic 1) (some 2)
      (some (.Basic 2)) = .ok witnessDbErc20 := by rfl
  refine ⟨hnew, ?_⟩
  exact ((claim_c5_lazy_strategy_classification witnessEnvErc20 0 1 1 2
      (.Basic 1) (.Basic 2) witnessDbErc20 hnew).2.1 64 64 100).mpr
    ⟨by decide, ⟨by decide, by decide⟩, by decide, by decide, by decide⟩

/-- A database state that has already recorded an MV-Memory origin for
storage slot 9 of address 5. -/
def witnessDbC1 : VmDb :=
  { tx_idx := 0, nonce := 0, from_addr := 1, from_hash := .Basic 1,
    to_addr := none, to_hash := none, to_code_hash := none,
    lazy_strategy := .None,
    read_set := [(.Storage 5 9, [.MvMemory ⟨0, 0⟩])], read_accounts := [] }

/-- Claim C1, counterexample: a later `VmDb::storage` read of an
already-read location succeeds even though the origins it resolves
(`[Storage]`) differ from the recorded sequence (`[MvMemory (0,0)]`) —
the method clears the recorded origins and re-records afresh instead of
failing with `InconsistentRead`. -/
theorem claim_c1_counterexample :
    lookupAssoc witnessDbC1.read_set (.Storage 5 9)
      = some [.MvMemory ⟨0, 0⟩]
    ∧ VmDb.storage witnessEnvEmpty witnessDbC1 5 9
      = .ok (42, { witnessDbC1 with read_set := [(.Storage 5 9, [.Storage])] })
    ∧ ¬([ReadOrigin.Storage] = [ReadOrigin.MvMemory ⟨0, 0⟩]) := by
  exact ⟨rfl, rfl, by decide⟩

/-- Extending a strict positional prefix by the origin found at the next
position. -/
theorem prefixStep (prev no : List ReadOrigin) (o : ReadOrigin)
    (t : List ReadOrigin) (ht : prev = no ++ t)
    (hget : prev[no.length]? = some o) :
    ∃ t', prev = (no ++ [o]) ++ t' := by
  subst ht
  rw [List.getElem?_append_right (Nat.le_refl _), Nat.sub_self] at hget
  cases t with
  | nil => simp at hget
  | cons a t' =>
    have ha : a = o := by simpa using hget
    subst ha
    exact ⟨t', by simp⟩

/-- A successful walk with previous origins resolves a positional prefix
of the recorded origin sequence (each resolved origin was checked against
the recorded one at its position). -/
theorem walkBasicOkNewOrigins (prev : List ReadOrigin) :
    ∀ (entries : List (Nat × MemoryEntry)) (no : List ReadOrigin)
      (mag : Nat) (pos : Bool) (cnt : Nat)
      (res : List ReadOrigin × Option AccountBasic × Nat × Bool × Nat),
      walkBasic true prev entries no mag pos cnt = .ok res →
      (∃ t, prev = no ++ t) → ∃ t, prev = res.1 ++ t := by
  intro entries
  induction entries with
  | nil =>
    intro no mag pos cnt res h hpre
    simp only [walkBasic, Except.ok.injEq] at h
    rw [← h]
    exact hpre
  | cons e rest ih =>
    obtain ⟨i, entry⟩ := e
    cases entry with
    | Estimate =>
      intro no mag pos cnt res h hpre
      simp [walkBasic] at h
    | Data inc v =>
      intro no mag pos cnt res h hpre
      obtain ⟨t, ht⟩ := hpre
      cases v with
      | Basic basic =>
        simp only [walkBasic] at h
        split at h
        · simp at h
        · split at h
          · simp at h
          · next hcond2 =>
            have hget : prev[no.length]?
                = some (ReadOrigin.MvMemory ⟨i, inc⟩) := by
              by_contra hne
              exact hcond2 ⟨trivial, hne⟩
            simp only [Except.ok.injEq] at h
            rw [← h]
            exact prefixStep prev no _ t ht hget
      | LazyRecipient addition =>
        simp only [walkBasic] at h
        split at h
        · simp at h
        · split at h
          · simp at h
          · next hcond2 =>
            have hget : prev[no.length]?
                = some (ReadOrigin.MvMemory ⟨i, inc⟩) := by
              by_contra hne
              exact hcond2 ⟨trivial, hne⟩
            have hpre' := prefixStep prev no _ t ht hget
            split at h
            · exact ih _ _ _ _ _ h hpre'
            · exact ih _ _ _ _ _ h hpre'
      | LazySender subtraction =>
        simp only [walkBasic] at h
        split at h
        · simp at h
        · split at h
          · simp at h
          · next hcond2 =>
            have hget : prev[no.length]?
                = some (ReadOrigin.MvMemory ⟨i, inc⟩) := by
              by_contra hne
              exact hcond2 ⟨trivial, hne⟩
            have hpre' := prefixStep prev no _ t ht hget
            split at h
            · exact ih _ _ _ _ _ h hpre'
            · exact ih _ _ _ _ _ h hpre'
      | CodeHash c =>
        simp only [walkBasic] at h
        split at h
        · simp at h
        · split at h <;> simp at h
      | Storage sv =>
        simp only [walkBasic] at h
        split at h
        · simp at h
        · split at h <;> simp at h
      | ERC20TransferSender sv =>
        simp only [walkBasic] at h
        split at h
        · simp at h
        · split at h <;> simp at h
      | ERC20TransferRecipient sv =>
        simp only [walkBasic] at h
        split at h
        · simp at h
        · split at h <;> simp at h
      | SelfDestructed =>
        simp only [walkBasic] at h
        split at h
        · simp at h
        · split at h <;> simp at h

/-- When the walk found no concrete account and previous origins exist,
a successful storage fallback pins the recorded sequence exactly: it is
the resolved origins extended by a final `Storage` origin. -/
theorem basicFallbackPrevExact (env : Vm) (address : Nat)
    (prev no : List ReadOrigin) (mag : Nat)
    (out : Option AccountBasic × List ReadOrigin)
    (hpre : ∃ t, prev = no ++ t)
    (h : basicFallback env address true prev no none mag = .ok out) :
    prev = no ++ [.Storage] := by
  simp only [basicFallback] at h
  split at h
  · next hc => simp at hc
  · split at h
    · simp at h
    · next hc2 =>
      have hlen : prev.length = no.length + 1 := by
        by_contra hne
        exact hc2 (Or.inl hne)
      have hlast : prev.getLast? = some .Storage := by
        by_contra hne
        exact hc2 (Or.inr hne)
      obtain ⟨t, ht⟩ := hpre
      subst ht
      have ht1 : t.length = 1 := by
        rw [List.length_append] at hlen
        omega
      obtain ⟨a, rfl⟩ : ∃ a, t = [a] := by
        cases t with
        | nil => simp at ht1
        | cons a t' =>
          refine ⟨a, ?_⟩
          simp at ht1
          rw [ht1]
      rw [List.getLast?_append_cons] at hlast
      simp at hlast
      rw [hlast]

/-- The storage-slot walk never raises `InconsistentRead`: it performs no
comparison with previously recorded origins. -/
theorem walkStorageNoInconsistent (env : Vm) (address index : Nat) :
    ∀ (entries : List (Nat × MemoryEntry)) (origins : List ReadOrigin)
      (acc : Nat),
      ¬(walkStorage env address index entries origins acc
        = .error .InconsistentRead) := by
  intro entries
  induction entries with
  | nil =>
    intro origins acc h
    simp only [walkStorage] at h
    split at h <;> simp at h
  | cons e rest ih =>
    obtain ⟨i, entry⟩ := e
    cases entry with
    | Estimate =>
      intro origins acc h
      simp [walkStorage] at h
    | Data inc v =>
      intro origins acc h
      cases v with
      | Storage sv => simp [walkStorage] at h
      | ERC20TransferRecipient a =>
        rw [walkStorage] at h
        exact ih _ _ h
      | ERC20TransferSender s =>
        rw [walkStorage] at h
        exact ih _ _ h
      | Basic b => simp [walkStorage] at h
      | CodeHash c => simp [walkStorage] at h
      | LazySender s => simp [walkStorage] at h
      | LazyRecipient a => simp [walkStorage] at h
      | SelfDestructed => simp [walkStorage] at h

/-- `VmDb::storage` never fails with `InconsistentRead`: it clears the
location's recorded origins and re-records them afresh on every read. -/
theorem vmDbStorageNoInconsistent (env : Vm) (db : VmDb)
    (address index : Nat) :
    ¬(VmDb.storage env db address index = .error .InconsistentRead) := by
  intro h
  unfold VmDb.storage at h
  have hNoMv : ∀ loc, ¬(storageNoMv env db loc address index
      = .error .InconsistentRead) := by
    intro loc hh
    simp only [storageNoMv] at hh
    split at hh
    · next e heq => simp [push_origin] at heq
    · split at hh <;> simp at hh
  have hSlow : ¬(storageSlow env db address index
      = .error .InconsistentRead) := by
    intro hh
    simp only [storageSlow] at hh
    split at hh
    · split at hh
      · split at hh
        · simp at hh
        · next e heq =>
          simp only [Except.error.injEq] at hh
          subst hh
          exact walkStorageNoInconsistent env address index _ _ _ heq
      · exact hNoMv _ hh
    · exact hNoMv _ hh
  split at h
  · split at h
    · split at h <;> simp at h
    · split at h
      · split at h <;> simp at h
      · exact hSlow h
  · exact hSlow h

/-- Claim C1 (amended): in `VmDb::basic`, a later read of an already-read
location checks each newly resolved origin positionally against the
recorded sequence — a successful walk resolves a positional prefix of the
recorded origins, and a successful fall-back to pre-block storage forces
the recorded sequence to be exactly the resolved origins plus a final
`Storage` origin (anything else fails with `InconsistentRead`); a read
that ends at a concrete MV-Memory `Basic` entry may however succeed with
a strictly shorter prefix, and storage-slot reads via `VmDb::storage`
perform no consistency check at all: they clear and re-record the
location's origins and never fail with `InconsistentRead`. -/
theorem claim_c1_read_origin_consistency (env : Vm) (db : VmDb)
    (address index : Nat) (prev : List ReadOrigin)
    (entries : List (Nat × MemoryEntry)) (mag : Nat)
    (res : List ReadOrigin × Option AccountBasic × Nat × Bool × Nat)
    (out : Option AccountBasic × List ReadOrigin) :
    (walkBasic true prev entries [] 0 true 0 = .ok res →
      ∃ t, prev = res.1 ++ t)
    ∧ (walkBasic true prev entries [] 0 true 0 = .ok res →
      basicFallback env address true prev res.1 none mag = .ok out →
      prev = res.1 ++ [.Storage])
    ∧ ¬(VmDb.storage env db address index = .error .InconsistentRead) := by
  refine ⟨?_, ?_, vmDbStorageNoInconsistent env db address index⟩
  · intro h
    exact walkBasicOkNewOrigins prev entries [] 0 true 0 res h ⟨prev, rfl⟩
  · intro h hf
    exact basicFallbackPrevExact env address prev res.1 mag out
      (walkBasicOkNewOrigins prev entries [] 0 true 0 res h ⟨prev, rfl⟩) hf

/-- Witness for claim C1 (amended) at concrete inputs. -/
theorem claim_c1_read_origin_consistency_witness :
    (∃ t, [ReadOrigin.MvMemory ⟨1, 0⟩, ReadOrigin.Storage]
        = [ReadOrigin.MvMemory ⟨1, 0⟩] ++ t)
    ∧ [ReadOrigin.MvMemory ⟨1, 0⟩, ReadOrigin.Storage]
        = [ReadOrigin.MvMemory ⟨1, 0⟩] ++ [ReadOrigin.Storage]
    ∧ ¬(VmDb.storage witnessEnvEmpty witnessDbC1 1 2
        = .error .InconsistentRead) := by
  refine ⟨?_, ?_, ?_⟩
  · exact (claim_c1_read_origin_consistency witnessEnvEmpty witnessDbC1 1 2
      [.MvMemory ⟨1, 0⟩, .Storage] [(1, .Data 0 (.Basic ⟨10, 0⟩))] 0
      ([.MvMemory ⟨1, 0⟩], some ⟨10, 0⟩, 0, true, 0)
      (some ⟨10, 0⟩, [.MvMemory ⟨1, 0⟩])).1 (by rfl)
  · exact (claim_c1_read_origin_consistency witnessEnvEmpty witnessDbC1 1 2
      [.MvMemory ⟨1, 0⟩, .Storage] [(1, .Data 0 (.LazyRecipient 5))] 5
      ([.MvMemory ⟨1, 0⟩], none, 5, true, 0)
      (some ⟨0, 0⟩, [.MvMemory ⟨1, 0⟩])).2.1 (by rfl) (by rfl)
  · exact (claim_c1_read_origin_consistency witnessEnvEmpty witnessDbC1 1 2
      [] [] 0 ([], none, 0, true, 0) (none, [])).2.2

/-- The signed lazy balance delta of one write-log value. -/
def lazyDelta : MemoryValue → Int
  | .LazyRecipient addition => (addition : Int)
  | .LazySender subtraction => -(subtraction : Int)
  | _ => 0

/-- The absolute lazy balance delta of one write-log value. -/
def lazyAbs : MemoryValue → Nat
  | .LazyRecipient addition => addition
  | .LazySender subtraction => subtraction
  | _ => 0

/-- The signed sum of lazy deltas over a log segment:
sum of `LazyRecipient` additions minus sum of `LazySender` subtractions. -/
def lazySumE : List (Nat × MemoryEntry) → Int
  | [] => 0
  | (_, .Data _ v) :: rest => lazyDelta v + lazySumE rest
  | (_, .Estimate) :: rest => lazySumE rest

/-- The sum of absolute lazy deltas over a log segment. -/
def absSumE : List (Nat × MemoryEntry) → Nat
  | [] => 0
  | (_, .Data _ v) :: rest => lazyAbs v + absSumE rest
  | (_, .Estimate) :: rest => absSumE rest

/-- The number of `LazySender` entries in a log segment. -/
def senderCountE : List (Nat × MemoryEntry) → Nat
  | [] => 0
  | (_, .Data _ (.LazySender _)) :: rest => 1 + senderCountE rest
  | _ :: rest => senderCountE rest

/-- A log entry is a lazy balance delta (a `Data` entry holding
`LazyRecipient` or `LazySender`). -/
def IsLazyEntry (e : Nat × MemoryEntry) : Prop :=
  (∃ i a, e.2 = .Data i (.LazyRecipient a))
  ∨ (∃ i s, e.2 = .Data i (.LazySender s))

/-- The read origin a walk records for a log entry. -/
def entryOrigin : Nat × MemoryEntry → ReadOrigin
  | (i, .Data inc _) => .MvMemory ⟨i, inc⟩
  | (_, .Estimate) => .Storage

/-- The signed value represented by the accumulator pair
(`positive_addition`, `balance_addition`). -/
def signVal (pos : Bool) (mag : Nat) : Int :=
  if pos then (mag : Int) else -(mag : Int)

/-- `uadd` is ordinary addition below the modulus. -/
theorem uadd_eq_of_lt {x y : Nat} (h : x + y < U256LIMIT) :
    uadd x y = x + y := Nat.mod_eq_of_lt h

/-- `usub` is ordinary subtraction when no underflow occurs. -/
theorem usub_eq_of_le {x y : Nat} (hy : y ≤ x) (hx : x < U256LIMIT) :
    usub x y = x - y := by
  unfold usub
  rw [Nat.mod_eq_of_lt (lt_of_le_of_lt hy hx)]
  have h1 : x + (U256LIMIT - y) = (x - y) + U256LIMIT := by
    have : y ≤ U256LIMIT := le_of_lt (lt_of_le_of_lt hy hx)
    omega
  rw [h1, Nat.add_mod_right, Nat.mod_eq_of_lt (by omega)]

/-- Updating one key leaves lookups of other keys unchanged. -/
theorem lookupAssoc_setAssoc_ne {α : Type} [DecidableEq α] {β : Type}
    (m : List (α × β)) (k k' : α) (v : β) (h : ¬(k = k')) :
    lookupAssoc (setAssoc m k v) k' = lookupAssoc m k' := by
  induction m with
  | nil => simp [setAssoc, lookupAssoc, h]
  | cons e rest ih =>
    obtain ⟨ke, ve⟩ := e
    by_cases hk : ke = k
    · subst hk
      simp [setAssoc, lookupAssoc, h]
    · simp [setAssoc, lookupAssoc, hk]
      split <;> simp [ih]

/-- Walking a segment of lazy entries (with no previous origins) reduces
to walking the continuation with: the origins extended by the segment's
origins, the accumulator pair representing its previous signed value plus
the segment's signed lazy sum, and the nonce addition increased by the
segment's `LazySender` count.  The accumulator magnitude stays bounded by
the running absolute sum, and a negative accumulator is never zero. -/
theorem walkBasicLazySegment :
    ∀ (lz : List (Nat × MemoryEntry)) (k : List (Nat × MemoryEntry))
      (no : List ReadOrigin) (mag : Nat) (pos : Bool) (cnt : Nat),
      (∀ e ∈ lz, IsLazyEntry e) →
      mag + absSumE lz < U256LIMIT →
      (pos = false → 0 < mag) →
      ∃ mag' pos',
        walkBasic false [] (lz ++ k) no mag pos cnt
          = walkBasic false [] k (no ++ lz.map entryOrigin) mag' pos'
              (cnt + senderCountE lz)
        ∧ signVal pos' mag' = signVal pos mag + lazySumE lz
        ∧ mag' ≤ mag + absSumE lz
        ∧ (pos' = false → 0 < mag') := by
  intro lz
  induction lz with
  | nil =>
    intro k no mag pos cnt _ _ hinv
    exact ⟨mag, pos, by simp [senderCountE], by simp [lazySumE],
      by simp [absSumE], hinv⟩
  | cons e t ih =>
    obtain ⟨i, entry⟩ := e
    intro k no mag pos cnt hlazy hbound hinv
    have hlazy' : ∀ x ∈ t, IsLazyEntry x :=
      fun x hx => hlazy x (List.mem_cons_of_mem _ hx)
    have he : IsLazyEntry (i, entry) := hlazy _ (List.mem_cons_self _ _)
    rcases he with ⟨inc, a, he2⟩ | ⟨inc, s, he2⟩
    · -- LazyRecipient
      simp only at he2
      subst he2
      have habs : absSumE ((i, MemoryEntry.Data inc (.LazyRecipient a)) :: t)
          = a + absSumE t := by simp [absSumE, lazyAbs]
      have hcnt : senderCountE ((i, MemoryEntry.Data inc (.LazyRecipient a)) :: t)
          = senderCountE t := by simp [senderCountE]
      have hsum : lazySumE ((i, MemoryEntry.Data inc (.LazyRecipient a)) :: t)
          = (a : Int) + lazySumE t := by simp [lazySumE, lazyDelta]
      have hmap : ((i, MemoryEntry.Data inc (.LazyRecipient a)) :: t).map
          entryOrigin = ReadOrigin.MvMemory ⟨i, inc⟩ :: t.map entryOrigin := by
        simp [entryOrigin]
      have hstep : walkBasic false []
            (((i, MemoryEntry.Data inc (.LazyRecipient a)) :: t) ++ k)
            no mag pos cnt
          = if pos = true then
              walkBasic false [] (t ++ k) (no ++ [.MvMemory ⟨i, inc⟩])
                (uadd mag a) pos cnt
            else
              walkBasic false [] (t ++ k) (no ++ [.MvMemory ⟨i, inc⟩])
                (absDiff mag a) (decide (mag ≤ a)) cnt := by
        simp [walkBasic]
      by_cases hp : pos = true
      · rw [if_pos hp] at hstep
        have huadd : uadd mag a = mag + a := by
          apply uadd_eq_of_lt
          rw [habs] at hbound
          omega
        rw [huadd] at hstep
        obtain ⟨mag', pos', heq, hsign, hle, hinv'⟩ :=
          ih k (no ++ [.MvMemory ⟨i, inc⟩]) (mag + a) pos cnt hlazy'
            (by rw [habs] at hbound; omega)
            (by intro hf; rw [hf] at hp; cases hp)
        refine ⟨mag', pos', ?_, ?_, ?_, hinv'⟩
        · rw [hstep, heq, hcnt, hmap]
          simp
        · rw [hsign, hsum, hp]
          simp only [signVal, if_pos rfl, if_true]
          push_cast
          ring
        · rw [habs]
          omega
      · have hp' : pos = false := by
          cases pos
          · rfl
          · exact absurd rfl hp
        subst hp'
        rw [if_neg hp] at hstep
        have hmagpos : 0 < mag := hinv rfl
        by_cases hma : mag ≤ a
        · have habsd : absDiff mag a = a - mag := by
            unfold absDiff
            split <;> omega
          have hd : decide (mag ≤ a) = true := by simp [hma]
          rw [habsd, hd] at hstep
          obtain ⟨mag', pos', heq, hsign, hle, hinv'⟩ :=
            ih k (no ++ [.MvMemory ⟨i, inc⟩]) (a - mag) true cnt hlazy'
              (by rw [habs] at hbound; omega)
              (by intro hf; cases hf)
          refine ⟨mag', pos', ?_, ?_, ?_, hinv'⟩
          · rw [hstep, heq, hcnt, hmap]
            simp
          · rw [hsign, hsum]
            simp only [signVal, if_pos rfl, if_true, Bool.false_eq_true,
              if_false]
            have : ((a - mag : Nat) : Int) = (a : Int) - (mag : Int) := by
              push_cast [hma]
              ring
            rw [this]
            ring
          · rw [habs]
            omega
        · have habsd : absDiff mag a = mag - a := by
            unfold absDiff
            split <;> omega
          have hd : decide (mag ≤ a) = false := by simp [hma]
          rw [habsd, hd] at hstep
          obtain ⟨mag', pos', heq, hsign, hle, hinv'⟩ :=
            ih k (no ++ [.MvMemory ⟨i, inc⟩]) (mag - a) false cnt hlazy'
              (by rw [habs] at hbound; omega)
              (by intro _; omega)
          refine ⟨mag', pos', ?_, ?_, ?_, hinv'⟩
          · rw [hstep, heq, hcnt, hmap]
            simp
          · rw [hsign, hsum]
            simp only [signVal, Bool.false_eq_true, if_false]
            have : ((mag - a : Nat) : Int) = (mag : Int) - (a : Int) := by
              push_cast [le_of_not_le hma]
              ring
            rw [this]
            ring
          · rw [habs]
            omega
    · -- LazySender
      simp only at he2
      subst he2
      have habs : absSumE ((i, MemoryEntry.Data inc (.LazySender s)) :: t)
          = s + absSumE t := by simp [absSumE, lazyAbs]
      have hcnt : senderCountE ((i, MemoryEntry.Data inc (.LazySender s)) :: t)
          = 1 + senderCountE t := by simp [senderCountE]
      have hsum : lazySumE ((i, MemoryEntry.Data inc (.LazySender s)) :: t)
          = -(s : Int) + lazySumE t := by simp [lazySumE, lazyDelta]
      have hmap : ((i, MemoryEntry.Data inc (.LazySender s)) :: t).map
          entryOrigin = ReadOrigin.MvMemory ⟨i, inc⟩ :: t.map entryOrigin := by
        simp [entryOrigin]
      have hstep : walkBasic false []
            (((i, MemoryEntry.Data inc (.LazySender s)) :: t) ++ k)
            no mag pos cnt
          = if pos = true then
              walkBasic false [] (t ++ k) (no ++ [.MvMemory ⟨i, inc⟩])
                (absDiff mag s) (decide (s ≤ mag)) (cnt + 1)
            else
              walkBasic false [] (t ++ k) (no ++ [.MvMemory ⟨i, inc⟩])
                (uadd mag s) pos (cnt + 1) := by
        simp [walkBasic]
      have hcnt2 : cnt + senderCountE ((i, MemoryEntry.Data inc
          (.LazySender s)) :: t) = (cnt + 1) + senderCountE t := by
        rw [hcnt]
        omega
      by_cases hp : pos = true
      · rw [if_pos hp] at hstep
        by_cases hsm : s ≤ mag
        · have habsd : absDiff mag s = mag - s := by
            unfold absDiff
            split <;> omega
          have hd : decide (s ≤ mag) = true := by simp [hsm]
          rw [habsd, hd] at hstep
          obtain ⟨mag', pos', heq, hsign, hle, hinv'⟩ :=
            ih k (no ++ [.MvMemory ⟨i, inc⟩]) (mag - s) true (cnt + 1) hlazy'
              (by rw [habs] at hbound; omega)
              (by intro hf; cases hf)
          refine ⟨mag', pos', ?_, ?_, ?_, hinv'⟩
          · rw [hstep, heq, hcnt2, hmap]
            simp
          · rw [hsign, hsum, hp]
            simp only [signVal, if_pos rfl, if_true]
            have : ((mag - s : Nat) : Int) = (mag : Int) - (s : Int) := by
              push_cast [hsm]
              ring
            rw [this]
            ring
          · rw [habs]
            omega
        · have habsd : absDiff mag s = s - mag := by
            unfold absDiff
            split <;> omega
          have hd : decide (s ≤ mag) = false := by simp [hsm]
          rw [habsd, hd] at hstep
          obtain ⟨mag', pos', heq, hsign, hle, hinv'⟩ :=
            ih k (no ++ [.MvMemory ⟨i, inc⟩]) (s - mag) false (cnt + 1) hlazy'
              (by rw [habs] at hbound; omega)
              (by intro _; omega)
          refine ⟨mag', pos', ?_, ?_, ?_, hinv'⟩
          · rw [hstep, heq, hcnt2, hmap]
            simp
          · rw [hsign, hsum, hp]
            simp only [signVal, if_pos rfl, if_true, Bool.false_eq_true,
              if_false]
            have : ((s - mag : Nat) : Int) = (s : Int) - (mag : Int) := by
              push_cast [le_of_not_le hsm]
              ring
            rw [this]
            ring
          · rw [habs]
            omega
      · have hp' : pos = false := by
          cases pos
          · rfl
          · exact absurd rfl hp
        subst hp'
        rw [if_neg hp] at hstep
        have hmagpos : 0 < mag := hinv rfl
        have huadd : uadd mag s = mag + s := by
          apply uadd_eq_of_lt
          rw [habs] at hbound
          omega
        rw [huadd] at hstep
        obtain ⟨mag', pos', heq, hsign, hle, hinv'⟩ :=
          ih k (no ++ [.MvMemory ⟨i, inc⟩]) (mag + s) false (cnt + 1) hlazy'
            (by rw [habs] at hbound; omega)
            (by intro _; omega)
        refine ⟨mag', pos', ?_, ?_, ?_, hinv'⟩
        · rw [hstep, heq, hcnt2, hmap]
          simp
        · rw [hsign, hsum]
          simp only [signVal, Bool.false_eq_true, if_false]
          push_cast
          ring
        · rw [habs]
          omega

/-- On a first read of a location, `basicSlow` reduces to finalising the
fallback's account with the walk's accumulators, after recording the
resolved origins. -/
theorem basicSlowFirstReadOk (env : Vm) (db : VmDb) (address : Nat)
    (loc : MemoryLocation) (log : List (Nat × MemoryEntry))
    (no : List ReadOrigin) (wa : Option AccountBasic) (mag : Nat) (pos : Bool)
    (cnt : Nat) (fb : Option AccountBasic) (no2 : List ReadOrigin)
    (h_first : lookupAssoc db.read_set loc = none)
    (h_tx : 0 < db.tx_idx)
    (h_mv : env.mvData loc = some log)
    (h_walk : walkBasic false [] (entriesBelow log db.tx_idx) [] 0 true 0
      = .ok (no, wa, mag, pos, cnt))
    (h_fb : basicFallback env address false [] no wa mag = .ok (fb, no2)) :
    basicSlow env db address loc
      = basicFinalize env { db with read_set := setAssoc db.read_set loc no2 }
          address loc fb mag pos cnt := by
  simp only [basicSlow]
  rw [h_first]
  simp only [Option.getD_none, List.isEmpty_nil, Bool.not_true]
  rw [if_pos h_tx, h_mv]
  simp only [h_walk, h_fb, Bool.false_eq_true, if_false]

/-- When the code-hash location was never read, MV-Memory has no entry for
it and pre-block storage resolves no code hash, `get_code_hash` returns
`none` after recording a `Storage` origin for the code-hash location. -/
theorem getCodeHashNoneClean (env : Vm) (db : VmDb) (address : Nat)
    (h1 : lookupAssoc db.read_set (.CodeHash address) = none)
    (h2 : env.mvData (.CodeHash address) = none)
    (h3 : env.storage.code_hash address = .ok none) :
    getCodeHash env db address
      = .ok (none,
          { db with
            read_set := setAssoc db.read_set (.CodeHash address) [.Storage] })
      := by
  simp only [getCodeHash]
  rw [h1, h2]
  simp only [Option.getD_none, getCodeHashStorage, push_origin,
    List.getLast?_nil, List.nil_append]
  rw [h3]

/-- Finalising a resolved non-sender account when the recipient code-hash
shortcut does not apply and code resolution finds nothing: the balance is
the base plus the signed accumulator, the nonce is the base plus the
lazy nonce additions. -/
theorem basicFinalizeClean (env : Vm) (db : VmDb) (address : Nat)
    (loc : MemoryLocation) (b : AccountBasic) (mag : Nat) (pos : Bool)
    (cnt : Nat) (db1 : VmDb)
    (hloc : ¬(loc = db.from_hash))
    (h_tohash : db.to_hash = none)
    (hch : getCodeHash env db address = .ok (none, db1)) :
    basicFinalize env db address loc (some b) mag pos cnt
      = .ok (some ⟨(if pos then uadd b.balance mag else usub b.balance mag),
          nonce64 (b.nonce + cnt), KECCAK_EMPTY, none⟩,
        { db1 with
          read_accounts :=
            setAssoc db1.read_accounts loc
              (⟨(if pos then uadd b.balance mag else usub b.balance mag),
                nonce64 (b.nonce + cnt)⟩, none) }) := by
  simp only [basicFinalize]
  rw [if_neg (fun hc => hloc hc.1)]
  simp only [basicFinalizeRest]
  rw [h_tohash]
  simp only [reduceCtorEq, if_false]
  rw [hch]
  simp only [resolveCode, Option.getD_none]

/-- Claim C2: on a first read of a non-sender account location whose log
below the reading transaction consists of lazy entries above either a
concrete `Basic` entry or (when the log is exhausted) the pre-block
storage account, `VmDb::basic` returns the base balance plus the sum of
`LazyRecipient` additions minus the sum of `LazySender` subtractions
(signed accumulation, so the partial sum may cross zero), and the base
nonce plus the number of `LazySender` entries traversed. -/
theorem claim_c2_lazy_basic_resolution (env : Vm) (db : VmDb) (address : Nat)
    (log lz rest : List (Nat × MemoryEntry)) (b : AccountBasic)
    (shape : (∃ j jinc, entriesBelow log db.tx_idx
        = lz ++ (j, .Data jinc (.Basic b)) :: rest)
      ∨ (entriesBelow log db.tx_idx = lz
         ∧ env.storage.basic address = .ok (some b)))
    (h_lazy : ∀ e ∈ lz, IsLazyEntry e)
    (h_strat : db.lazy_strategy = .None)
    (h_to : db.to_addr = none)
    (h_tohash : db.to_hash = none)
    (h_addr : ¬(address = db.from_addr))
    (h_loc : ¬(MemoryLocation.Basic address = db.from_hash))
    (h_first : lookupAssoc db.read_set (.Basic address) = none)
    (h_tx : 0 < db.tx_idx)
    (h_mv : env.mvData (.Basic address) = some log)
    (h_bound : b.balance + absSumE lz < U256LIMIT)
    (h_nonneg : 0 ≤ (b.balance : Int) + lazySumE lz)
    (h_nonce : b.nonce + senderCountE lz < 2 ^ 64)
    (h_chmv : env.mvData (.CodeHash address) = none)
    (h_chfirst : lookupAssoc db.read_set (.CodeHash address) = none)
    (h_chstorage : env.storage.code_hash address = .ok none) :
    ∃ db' info, VmDb.basic env db address = .ok (some info, db')
      ∧ (info.balance : Int) = (b.balance : Int) + lazySumE lz
      ∧ info.nonce = b.nonce + senderCountE lz := by
  have hloc : hashBasic db address = .Basic address := by
    unfold hashBasic
    rw [if_neg h_addr, h_to]
    simp
  have hbasic : VmDb.basic env db address
      = basicSlow env db address (.Basic address) := by
    simp only [VmDb.basic]
    rw [hloc, h_strat]
    simp [isRawTransfer]
  obtain ⟨mag', pos', no2, hfin_eq, hsign, hle, hinv'⟩ :
      ∃ mag' pos' no2,
        basicSlow env db address (.Basic address)
          = basicFinalize env
              { db with read_set := setAssoc db.read_set (.Basic address) no2 }
              address (.Basic address) (some b) mag' pos' (senderCountE lz)
        ∧ signVal pos' mag' = lazySumE lz
        ∧ mag' ≤ absSumE lz
        ∧ (pos' = false → 0 < mag') := by
    rcases shape with ⟨j, jinc, hsh⟩ | ⟨hsh, hstor⟩
    · obtain ⟨mag', pos', heq, hsign, hle, hinv'⟩ :=
        walkBasicLazySegment lz ((j, .Data jinc (.Basic b)) :: rest) [] 0 true
          0 h_lazy (by omega) (by intro hf; cases hf)
      have h_walk : walkBasic false [] (entriesBelow log db.tx_idx) [] 0 true 0
          = .ok (lz.map entryOrigin ++ [.MvMemory ⟨j, jinc⟩], some b, mag',
              pos', senderCountE lz) := by
        rw [hsh, heq]
        simp [walkBasic]
      have h_fb : basicFallback env address false []
          (lz.map entryOrigin ++ [.MvMemory ⟨j, jinc⟩]) (some b) mag'
          = .ok (some b, lz.map entryOrigin ++ [.MvMemory ⟨j, jinc⟩]) := rfl
      refine ⟨mag', pos', lz.map entryOrigin ++ [.MvMemory ⟨j, jinc⟩],
        basicSlowFirstReadOk env db address (.Basic address) log _ _ _ _ _ _ _
          h_first h_tx h_mv h_walk h_fb, ?_, ?_, hinv'⟩
      · rw [hsign]
        simp [signVal]
      · simpa using hle
    · obtain ⟨mag', pos', heq, hsign, hle, hinv'⟩ :=
        walkBasicLazySegment lz [] [] 0 true 0 h_lazy (by omega)
          (by intro hf; cases hf)
      have h0 : lz ++ ([] : List (Nat × MemoryEntry)) = lz := List.append_nil lz
      have h_walk : walkBasic false [] (entriesBelow log db.tx_idx) [] 0 true 0
          = .ok (lz.map entryOrigin, none, mag', pos', senderCountE lz) := by
        rw [hsh, ← h0, heq]
        simp [walkBasic]
      have h_fb : basicFallback env address false [] (lz.map entryOrigin) none
          mag' = .ok (some b, lz.map entryOrigin ++ [.Storage]) := by
        simp [basicFallback, hstor]
      refine ⟨mag', pos', lz.map entryOrigin ++ [.Storage],
        basicSlowFirstReadOk env db address (.Basic address) log _ _ _ _ _ _ _
          h_first h_tx h_mv h_walk h_fb, ?_, ?_, hinv'⟩
      · rw [hsign]
        simp [signVal]
      · simpa using hle
  have hch := getCodeHashNoneClean env
    { db with read_set := setAssoc db.read_set (.Basic address) no2 } address
    ((lookupAssoc_setAssoc_ne db.read_set (.Basic address) (.CodeHash address)
      no2 (by simp)).trans h_chfirst) h_chmv h_chstorage
  have hfinal := basicFinalizeClean env
    { db with read_set := setAssoc db.read_set (.Basic address) no2 } address
    (.Basic address) b mag' pos' (senderCountE lz) _ h_loc h_tohash hch
  have hnonce_eq : nonce64 (b.nonce + senderCountE lz)
      = b.nonce + senderCountE lz := Nat.mod_eq_of_lt h_nonce
  refine ⟨_, _, hbasic.trans (hfin_eq.trans hfinal), ?_, ?_⟩
  · show ((if pos' = true then uadd b.balance mag'
        else usub b.balance mag' : Nat) : Int)
      = (b.balance : Int) + lazySumE lz
    by_cases hp : pos' = true
    · rw [if_pos hp]
      have hmageq : (mag' : Int) = lazySumE lz := by
        rw [← hsign, hp]
        simp [signVal]
      rw [uadd_eq_of_lt (by omega)]
      push_cast
      omega
    · have hp' : pos' = false := by
        cases pos'
        · rfl
        · exact absurd rfl hp
      rw [if_neg hp]
      have hmageq : -(mag' : Int) = lazySumE lz := by
        rw [← hsign, hp']
        simp [signVal]
      have hmle : mag' ≤ b.balance := by omega
      rw [usub_eq_of_le hmle (by omega)]
      push_cast [hmle]
      omega
  · show nonce64 (b.nonce + senderCountE lz) = b.nonce + senderCountE lz
    exact hnonce_eq

/-- A concrete account log: a `Basic` base written by tx 0 with two lazy
deltas above it (a sender subtraction by tx 1, a recipient addition by
tx 2). -/
def witnessLog : List (Nat × MemoryEntry) :=
  [(0, .Data 0 (.Basic ⟨10, 7⟩)), (1, .Data 0 (.LazySender 3)),
   (2, .Data 1 (.LazyRecipient 5))]

/-- The lazy segment of `witnessLog` as traversed backwards from tx 3. -/
def witnessLz : List (Nat × MemoryEntry) :=
  [(2, .Data 1 (.LazyRecipient 5)), (1, .Data 0 (.LazySender 3))]

/-- An environment holding `witnessLog` for account 5. -/
def witnessEnvLazy : Vm :=
  { storage :=
      { basic := fun _ => .ok none, code_hash := fun _ => .ok none,
        code_by_hash := fun _ => .ok none, has_storage := fun _ => .ok false,
        storage := fun _ _ => .ok 0, block_hash := fun _ => .ok 0 },
    mvData := fun l => if l = .Basic 5 then some witnessLog else none,
    new_bytecodes := fun _ => none, keccak256 := fun _ => 0, txs := [] }

/-- The reading transaction's database state for the C2 witness. -/
def witnessDbLazy : VmDb :=
  { tx_idx := 3, nonce := 0, from_addr := 1, from_hash := .Basic 1,
    to_addr := none, to_hash := none, to_code_hash := none,
    lazy_strategy := .None, read_set := [], read_accounts := [] }

/-- Witness for claim C2 at concrete inputs: base balance 10 with deltas
+5 and -3 resolves to balance 12, base nonce 7 with one `LazySender`
resolves to nonce 8. -/
theorem claim_c2_lazy_basic_resolution_witness :
    ∃ db' info, VmDb.basic witnessEnvLazy witnessDbLazy 5
        = .ok (some info, db')
      ∧ (info.balance : Int) = 12
      ∧ info.nonce = 8 := by
  obtain ⟨db', info, h1, h2, h3⟩ :=
    claim_c2_lazy_basic_resolution witnessEnvLazy witnessDbLazy 5 witnessLog
      witnessLz [] ⟨10, 7⟩
      (Or.inl ⟨0, 0, by decide⟩)
      (by
        intro e he
        simp only [witnessLz, List.mem_cons, List.not_mem_nil, or_false]
          at he
        rcases he with rfl | rfl
        · exact Or.inl ⟨1, 5, rfl⟩
        · exact Or.inr ⟨0, 3, rfl⟩)
      rfl rfl rfl (by decide) (by decide) rfl (by decide) rfl
      (by decide) (by decide) (by decide) rfl rfl rfl
  refine ⟨db', info, h1, ?_, ?_⟩
  · rw [h2]
    decide
  · rw [h3]
    decide


/-- The account built by the finalisation tail carries exactly the nonce
it was given. -/
theorem basicFinalizeRestNonce (env : Vm) (db : VmDb) (address : Nat)
    (loc : MemoryLocation) (bal non : Nat) (info : AccountInfo) (db' : VmDb)
    (h : basicFinalizeRest env db address loc bal non = .ok (some info, db')) :
    info.nonce = non := by
  simp only [basicFinalizeRest] at h
  split at h
  · simp at h
  · split at h
    · simp at h
    · simp only [Except.ok.injEq, Prod.mk.injEq, Option.some.injEq] at h
      rw [← h.1]

/-- Any account successfully returned by the finalisation step for the
sender location carries exactly the transaction's nonce (the nonce check
rejects everything else). -/
theorem basicFinalizeSenderNonce (env : Vm) (db : VmDb) (address : Nat)
    (loc : MemoryLocation) (fa : Option AccountBasic) (mag : Nat) (pos : Bool)
    (cnt : Nat) (info : AccountInfo) (db' : VmDb)
    (hloc : loc = db.from_hash)
    (h : basicFinalize env db address loc fa mag pos cnt
      = .ok (some info, db')) :
    info.nonce = db.nonce := by
  cases fa with
  | none => simp [basicFinalize] at h
  | some account =>
    simp only [basicFinalize] at h
    by_cases hcnd : loc = db.from_hash
        ∧ ¬(nonce64 (account.nonce + cnt) = db.nonce)
    · rw [if_pos hcnd] at h
      split at h <;> simp at h
    · rw [if_neg hcnd] at h
      rw [basicFinalizeRestNonce env db address loc _ _ info db' h]
      by_contra hne
      exact hcnd ⟨hloc, hne⟩

/-- On a first read of a location with no MV-Memory log, `basicSlow`
reduces to finalising the storage fallback with empty accumulators. -/
theorem basicSlowFirstReadNoMv (env : Vm) (db : VmDb) (address : Nat)
    (loc : MemoryLocation) (fb : Option AccountBasic) (no2 : List ReadOrigin)
    (h_first : lookupAssoc db.read_set loc = none)
    (h_mv : env.mvData loc = none)
    (h_fb : basicFallback env address false [] [] none 0 = .ok (fb, no2)) :
    basicSlow env db address loc
      = basicFinalize env { db with read_set := setAssoc db.read_set loc no2 }
          address loc fb 0 true 0 := by
  simp only [basicSlow]
  rw [h_first]
  simp only [Option.getD_none, List.isEmpty_nil, Bool.not_true]
  rw [h_mv]
  simp only [ite_self]
  simp only [h_fb, Bool.false_eq_true, if_false]

/-- Finalising the sender account when the fully resolved nonce differs
from the transaction's nonce: `BlockingIndex (tx_idx - 1)` for a
non-first transaction, `InvalidNonce` for the first. -/
theorem basicFinalizeSenderMismatch (env : Vm) (db : VmDb) (address : Nat)
    (base : AccountBasic)
    (hn64 : base.nonce < 2 ^ 64)
    (hne : ¬(base.nonce = db.nonce)) :
    basicFinalize env db address db.from_hash (some base) 0 true 0
      = .error (if 0 < db.tx_idx then .BlockingIndex (db.tx_idx - 1)
          else .InvalidNonce) := by
  simp only [basicFinalize]
  have hcnd : True ∧ ¬(nonce64 (base.nonce + 0) = db.nonce) := by
    refine ⟨trivial, ?_⟩
    have : nonce64 (base.nonce + 0) = base.nonce := by
      unfold nonce64
      rw [Nat.add_zero]
      exact Nat.mod_eq_of_lt hn64
    rw [this]
    exact hne
  rw [if_pos hcnd]
  by_cases ht : 0 < db.tx_idx
  · rw [if_pos ht, if_pos ht]
  · rw [if_neg ht, if_neg ht]

/-- Claim C9: a successful `VmDb::basic` read of the sender location
always returns the transaction's nonce (this holds for the sentinel fast
path too); and when the resolved sender nonce differs from the
transaction's, a first read against pre-block storage fails with
`BlockingIndex (tx_idx - 1)` when `tx_idx > 0` and with `InvalidNonce`
when `tx_idx = 0`. -/
theorem claim_c9_sender_nonce_check (env : Vm) (db : VmDb) (address : Nat)
    (hloc : hashBasic db address = db.from_hash) :
    (∀ info db', VmDb.basic env db address = .ok (some info, db') →
      info.nonce = db.nonce)
    ∧ (isRawTransfer db.lazy_strategy = false →
      lookupAssoc db.read_set db.from_hash = none →
      env.mvData db.from_hash = none →
      ∀ base, env.storage.basic address = .ok (some base) →
      base.nonce < 2 ^ 64 →
      ¬(base.nonce = db.nonce) →
      VmDb.basic env db address
        = .error (if 0 < db.tx_idx then .BlockingIndex (db.tx_idx - 1)
            else .InvalidNonce)) := by
  constructor
  · intro info db' h
    simp only [VmDb.basic] at h
    rw [hloc] at h
    by_cases hraw : isRawTransfer db.lazy_strategy = true
    · rw [if_pos hraw, if_pos rfl] at h
      simp only [Except.ok.injEq, Prod.mk.injEq, Option.some.injEq] at h
      rw [← h.1]
    · rw [if_neg hraw] at h
      simp only [basicSlow] at h
      split at h
      · simp at h
      · split at h
        · simp at h
        · have hres := basicFinalizeSenderNonce env _ address db.from_hash
            _ _ _ _ info db' (by rfl) h
          exact hres
  · intro hraw hfirst hmv base hstor hn64 hne
    have h_fb : basicFallback env address false [] [] none 0
        = .ok (some base, [.Storage]) := by
      simp [basicFallback, hstor]
    have hb : VmDb.basic env db address
        = basicSlow env db address db.from_hash := by
      simp only [VmDb.basic]
      rw [hloc]
      rw [if_neg (by simp [hraw])]
    rw [hb, basicSlowFirstReadNoMv env db address db.from_hash (some base)
      [.Storage] hfirst hmv h_fb]
    exact basicFinalizeSenderMismatch env _ address base hn64 hne

/-- An environment whose pre-block storage holds a sender account with
nonce 7. -/
def witnessEnvC9 : Vm :=
  { storage :=
      { basic := fun _ => .ok (some ⟨100, 7⟩), code_hash := fun _ => .ok none,
        code_by_hash := fun _ => .ok none, has_storage := fun _ => .ok false,
        storage := fun _ _ => .ok 0, block_hash := fun _ => .ok 0 },
    mvData := fun _ => none, new_bytecodes := fun _ => none,
    keccak256 := fun _ => 0, txs := [] }

/-- A database state for transaction 2 whose sender nonce is 5. -/
def witnessDbC9 : VmDb :=
  { tx_idx := 2, nonce := 5, from_addr := 1, from_hash := .Basic 1,
    to_addr := none, to_hash := none, to_code_hash := none,
    lazy_strategy := .None, read_set := [], read_accounts := [] }

/-- Witness for claim C9 at concrete inputs: reading the sender (stored
nonce 7, transaction nonce 5) at `tx_idx = 2` fails with
`BlockingIndex 1`. -/
theorem claim_c9_sender_nonce_check_witness :
    VmDb.basic witnessEnvC9 witnessDbC9 1 = .error (.BlockingIndex 1) := by
  have h := (claim_c9_sender_nonce_check witnessEnvC9 witnessDbC9 1 rfl).2
    rfl rfl rfl ⟨100, 7⟩ rfl (by decide) (by decide)
  simpa using h
